import Mathlib

/-!
Shallow embedding of the duplicate-file-removal scripts
(`Compressed_package.py`, `folder.py`, `Files.py`, `Plagiarism_check.py`,
`check.py`) and proofs about their deduplication logic.

Modelling conventions:
* Python dicts `{path: size}` become association lists `List (String × Nat)`;
  dicts built by the scanners have pairwise-distinct keys, which theorems take
  as `Nodup` hypotheses where needed.
* Dict equality (`d1 == d2` in Python) is extensional key/value equality,
  modelled by `dictEq`.
* The float comparison `abs(a-b)/max(a,b) > 0.15` is modelled exactly over the
  rationals as `20 * |a-b| > 3 * max a b`; the `ZeroDivisionError` raised when
  `max a b = 0` is modelled by `Except`, whose `error` value propagates and
  aborts the surrounding pass, as the uncaught Python exception does.
* Filesystem and external-tool interaction (`os.listdir`, 7z listings, MD5
  hashing, `os.path.exists`, I/O faults on delete) are oracles passed in as
  function arguments; the logic under proof is exactly the decision logic of
  the scripts.
-/

namespace Dedup

/-- Contents dict of an archive or folder: relative path ↦ size
(`list_archive_contents` / `scan_folder_contents` results). -/
abbrev Contents := List (String × Nat)

/-- Sum of the sizes of a contents dict (`sum(contents.values())`). -/
def sumSizes (c : Contents) : Nat :=
  (c.map Prod.snd).sum

/-- Dict lookup `contents[file]` as an option (`file in contents` guard). -/
def lookupSize (c : Contents) (k : String) : Option Nat :=
  (c.find? (fun e => e.1 = k)).map Prod.snd

/-- Python dict equality `d1 == d2`: same keys, same values (order-free). -/
def dictEq (c1 c2 : Contents) : Bool :=
  c1.all (fun e => lookupSize c2 e.1 == some e.2) &&
    c2.all (fun e => lookupSize c1 e.1 == some e.2)

/-- The per-archive / per-folder record built by `scan_archives` and
`scan_folders`: `{'contents': ..., 'total_size': ..., 'file_count': ...}`. -/
structure ArchiveData where
  contents : Contents
  total_size : Nat
  file_count : Nat
deriving Repr, DecidableEq

/-- Builder of the scan record: `total_size = sum(contents.values())`,
`file_count = len(contents)` (Compressed_package.py lines 114-118,
folder.py lines 78-82). -/
def mkArchiveData (c : Contents) : ArchiveData :=
  ⟨c, sumSizes c, c.length⟩

/-- `are_archives_identical` (Compressed_package.py lines 122-128):
equal file counts, equal total sizes, equal contents dicts.
`are_folders_identical` (folder.py lines 86-92) is the same code. -/
def are_archives_identical (a1 a2 : ArchiveData) : Bool :=
  a1.file_count == a2.file_count &&
    a1.total_size == a2.total_size &&
    dictEq a1.contents a2.contents

/-- `is_archive_contained` (Compressed_package.py lines 131-139): false if
small has more files than large, else every entry of small must be present
in large with the identical size. `is_folder_contained` (folder.py
lines 94-102) is the same code. -/
def is_archive_contained (small large : ArchiveData) : Bool :=
  if small.file_count > large.file_count then false
  else small.contents.all (fun e => lookupSize large.contents e.1 == some e.2)

/-- The size-ratio prefilter test
`abs(c - a) / max(c, a) > 0.15` (Compressed_package.py line 242,
folder.py line 204), computed exactly over ℚ as `20·|c−a| > 3·max c a`.
When `max c a = 0` the Python division raises `ZeroDivisionError`,
modelled as `Except.error`. -/
def ratioGt15 (s1 s2 : Nat) : Except Unit Bool :=
  let mx := max s1 s2
  if mx = 0 then Except.error ()
  else Except.ok (decide (20 * (mx - min s1 s2) > 3 * mx))

/-- `tuple(sorted((c_path, a_path)))` (Compressed_package.py line 236). -/
def pairKey (p q : String) : String × String :=
  if p ≤ q then (p, q) else (q, p)

/-- Insert into a list sorted by `le` (used to model `sort_keys=True`). -/
def insortBy (le : α → α → Bool) (x : α) : List α → List α
  | [] => [x]
  | y :: ys => if le x y then x :: y :: ys else y :: insortBy le x ys

/-- Sort a list by `le` (insertion sort; only its result matters). -/
def sortedBy (le : α → α → Bool) (l : List α) : List α :=
  l.foldr (insortBy le) []

/-- `json.dumps(data['contents'], sort_keys=True)` (Compressed_package.py
line 182, folder.py line 144): the grouping key is the contents dict
serialized with its keys sorted; two dicts with distinct keys serialize
equally iff their key-sorted entry lists are equal, so the model uses the
key-sorted entry list itself as the key. -/
def contentKey (d : ArchiveData) : Contents :=
  sortedBy (fun p q => decide (p.1 < q.1)) d.contents

/-- The keys of `defaultdict(list)` grouping in first-insertion order. -/
def keysInOrder (key : α → κ) [DecidableEq κ] : List α → List κ
  | [] => []
  | x :: xs => key x :: (keysInOrder key xs).filter (fun k => k ≠ key x)

/-- `content_groups = defaultdict(list); for x: groups[key(x)].append(x)`
(Compressed_package.py lines 179-183, Plagiarism_check.py lines 71-106):
keys in first-insertion order, each key mapped to all its elements in
encounter order. -/
def groupByKey (key : α → κ) [DecidableEq κ] (l : List α) : List (κ × List α) :=
  (keysInOrder key l).map (fun k => (k, l.filter (fun x => key x = k)))

/-- Self-deduplication pass 2.1 (Compressed_package.py lines 186-201,
folder.py lines 148-163): group candidates by `contentKey`; in every group
with more than one member keep `paths[0]` and delete `paths[1:]`.
Returns the deleted paths. -/
def selfDedup (cands : List (String × ArchiveData)) : List String :=
  (groupByKey (fun pd => contentKey pd.2) cands).flatMap
    (fun kps => if 1 < kps.2.length then (kps.2.map Prod.fst).tail else [])

/-- Candidates surviving pass 2.1 (`del archives_c[path]` at line 206). -/
def survivors21 (cands : List (String × ArchiveData)) : List (String × ArchiveData) :=
  cands.filter (fun c => c.1 ∉ selfDedup cands)

/-- Cross-identity pass 2.2 inner logic (Compressed_package.py lines
212-219, folder.py lines 174-181): for each candidate, scan the references
in order and break at the first identical one; record the decision
(candidate, keeper) unless the candidate path was already listed. -/
def pass22Aux (refs : List (String × ArchiveData)) :
    List (String × ArchiveData) → List String →
    List ((String × ArchiveData) × (String × ArchiveData))
  | [], _ => []
  | c :: cs, toDel =>
    match refs.find? (fun a => are_archives_identical a.2 c.2) with
    | none => pass22Aux refs cs toDel
    | some a =>
      if c.1 ∈ toDel then pass22Aux refs cs toDel
      else (c, a) :: pass22Aux refs cs (toDel ++ [c.1])

/-- Pass 2.2 decisions: (deleted candidate, kept reference) pairs. -/
def pass22 (refs cands : List (String × ArchiveData)) :
    List ((String × ArchiveData) × (String × ArchiveData)) :=
  pass22Aux refs cands []

/-- Paths deleted by pass 2.2 (`to_delete` at line 222). -/
def toDelete22 (refs cands : List (String × ArchiveData)) : List String :=
  (pass22 refs cands).map (fun d => d.1.1)

/-- Candidates surviving pass 2.2 (`del archives_c[path]` at line 224). -/
def survivors22 (refs cands : List (String × ArchiveData)) :
    List (String × ArchiveData) :=
  cands.filter (fun c => c.1 ∉ toDelete22 refs cands)

/-- The containment scan over the references for one candidate
(Compressed_package.py lines 233-252, folder.py lines 195-214): skip pairs
already in `processed_pairs`; compute the size ratio (which divides by zero
when both totals are zero — `Except.error`); skip when the ratio exceeds
0.15; on `is_archive_contained` with strictly fewer files, the candidate is
recorded and the scan breaks, provided it is not already listed and still
exists (`os.path.exists` oracle `ex`); otherwise the scan continues. -/
def scanRefs (ex : String → Bool) (c : String × ArchiveData) (toDel : List String) :
    List (String × ArchiveData) → List (String × String) →
    Except Unit (Option (String × ArchiveData) × List (String × String))
  | [], proc => Except.ok (none, proc)
  | a :: rest, proc =>
    if pairKey c.1 a.1 ∈ proc then scanRefs ex c toDel rest proc
    else
      match ratioGt15 c.2.total_size a.2.total_size with
      | Except.error e => Except.error e
      | Except.ok true => scanRefs ex c toDel rest (pairKey c.1 a.1 :: proc)
      | Except.ok false =>
        if is_archive_contained c.2 a.2 && decide (c.2.file_count < a.2.file_count) then
          if c.1 ∉ toDel && ex c.1 then
            Except.ok (some a, pairKey c.1 a.1 :: proc)
          else scanRefs ex c toDel rest (pairKey c.1 a.1 :: proc)
        else scanRefs ex c toDel rest (pairKey c.1 a.1 :: proc)

/-- Containment pass 2.3 outer loop (Compressed_package.py lines 226-252,
folder.py lines 188-214), threading `to_delete` and `processed_pairs`
through the candidates; an uncaught `ZeroDivisionError` aborts the pass.
Decisions carry (deleted candidate, kept reference) with their data. -/
def pass23Aux (ex : String → Bool) (refs : List (String × ArchiveData)) :
    List (String × ArchiveData) → List String → List (String × String) →
    Except Unit (List ((String × ArchiveData) × (String × ArchiveData)))
  | [], _, _ => Except.ok []
  | c :: cs, toDel, proc =>
    match scanRefs ex c toDel refs proc with
    | Except.error e => Except.error e
    | Except.ok (none, proc2) => pass23Aux ex refs cs toDel proc2
    | Except.ok (some a, proc2) =>
      match pass23Aux ex refs cs (toDel ++ [c.1]) proc2 with
      | Except.error e => Except.error e
      | Except.ok ds => Except.ok ((c, a) :: ds)

/-- Pass 2.3 with fresh `to_delete` and `processed_pairs` (lines 228-229). -/
def pass23 (ex : String → Bool) (refs cands : List (String × ArchiveData)) :
    Except Unit (List ((String × ArchiveData) × (String × ArchiveData))) :=
  pass23Aux ex refs cands [] []

/-- The cross-collection reduction of `process_archives` /
`process_folders`: identity pass 2.2 over all remaining candidates, then
containment pass 2.3 over the candidates that survived it. -/
def process_cross (ex : String → Bool) (refs cands : List (String × ArchiveData)) :
    List ((String × ArchiveData) × (String × ArchiveData)) ×
      Except Unit (List ((String × ArchiveData) × (String × ArchiveData))) :=
  (pass22 refs cands, pass23 ex refs (survivors22 refs cands))

/-- Specification-side predicate (cf. spec §4.4 pass B step 2): the full
per-reference condition under which pass 2.3 marks a candidate against a
reference — the size-ratio prefilter evaluates to "do not skip", the
subset scan succeeds, and the candidate has strictly fewer files. Used to
state that the pass records the first reference satisfying it. -/
def crossMatch (c a : String × ArchiveData) : Bool :=
  match ratioGt15 c.2.total_size a.2.total_size with
  | Except.ok false =>
    is_archive_contained c.2 a.2 && decide (c.2.file_count < a.2.file_count)
  | _ => false

/-! ### Directory scanning (`Files.py`, `Compressed_package.py`, `folder.py`) -/

/-- Index of the last '.' in a character list, if any. -/
def lastDotIdx (cs : List Char) : Option Nat :=
  match cs.reverse.findIdx? (fun ch => ch = '.') with
  | none => none
  | some j => some (cs.length - 1 - j)

/-- The extension part of `os.path.splitext(name)`: the suffix starting at
the last dot, provided some character strictly before that dot is not a dot
(so ".bashrc" has extension "" while "a.tar" has ".tar"). -/
def splitextExt (s : String) : String :=
  let cs := s.toList
  match lastDotIdx cs with
  | none => ""
  | some i => if (cs.take i).any (fun ch => ch ≠ '.') then ⟨cs.drop i⟩ else ""

/-- `ext.lower()`: ASCII lower-casing of the extension, written over the
character list so that it evaluates inside the kernel. -/
def lowerStr (s : String) : String :=
  ⟨s.data.map Char.toLower⟩

/-- `os.path.join(folder, entry)` (separator abstracted to "/"). -/
def pathJoin (folder name : String) : String :=
  folder ++ "/" ++ name

/-- One entry of an `os.listdir` listing, with its stat size. A file whose
`os.path.getsize` raises is logged and skipped by the source; such entries
are simply absent from the modelled listing. -/
structure FsEntry where
  name : String
  isFile : Bool
  size : Nat
deriving Repr, DecidableEq

/-- The archive extension set of `Files.py` line 48. -/
def archiveExtensions : List String :=
  [".zip", ".rar", ".7z", ".tar", ".gz", ".bz2"]

/-- One record of the `regular_files` dict of `get_regular_files`. -/
structure RegFile where
  name : String
  size : Nat
  path : String
deriving Repr, DecidableEq

/-- `get_regular_files` (Files.py lines 35-79): keep plain files whose
lower-cased extension is not an archive extension, recording name, size and
full path. -/
def get_regular_files (folder : String) (ents : List FsEntry) : List RegFile :=
  ents.filterMap fun e =>
    if e.isFile && decide (lowerStr (splitextExt e.name) ∉ archiveExtensions) then
      some ⟨e.name, e.size, pathJoin folder e.name⟩
    else none

/-- `scan_archives` (Compressed_package.py lines 103-119): keep plain files
with extension `.zip` or `.rar`, list their contents through the 7z oracle
`lc` (None on failure drops the archive), and build the scan record. -/
def scan_archives (lc : String → Option Contents) (folder : String)
    (ents : List FsEntry) : List (String × ArchiveData) :=
  ents.filterMap fun e =>
    if e.isFile && decide (lowerStr (splitextExt e.name) ∈ [".zip", ".rar"]) then
      match lc (pathJoin folder e.name) with
      | none => none
      | some c => some (pathJoin folder e.name, mkArchiveData c)
    else none

/-- `scan_folders` (folder.py lines 56-84): keep directories whose scanned
contents (oracle `sc` standing for `scan_folder_contents`) are nonempty,
and build the scan record. -/
def scan_folders (sc : String → Contents) (folder : String)
    (ents : List FsEntry) : List (String × ArchiveData) :=
  ents.filterMap fun e =>
    if !e.isFile then
      let c := sc (pathJoin folder e.name)
      if c ≠ [] then some (pathJoin folder e.name, mkArchiveData c) else none
    else none

/-- The plain-file pass of `process_regular_files` (Files.py lines
108-148): for each candidate file with a same-name same-size reference
file, hash both through the oracle (None = `calculate_file_hash` failure,
the pair is skipped); the candidate path joins the deletion list only when
both hashes exist and are equal. Returns `to_delete`. -/
def process_regular_files (hashOf : String → Option String)
    (filesA filesC : List RegFile) : List String :=
  filesC.filterMap fun c =>
    match filesA.find? (fun a => a.name = c.name ∧ a.size = c.size) with
    | none => none
    | some a =>
      match hashOf c.path, hashOf a.path with
      | some ch, some ah => if ch = ah then some c.path else none
      | _, _ => none

/-! ### `Plagiarism_check.py`: the name-and-size pass -/

/-- A file as seen by `Plagiarism_check.py`: `get_file_info` extracts only
`(name, size)`; the byte content exists on disk but is never read by this
script, and is carried here only to state content properties. -/
structure PFile where
  path : String
  name : String
  size : Nat
  content : List Nat
deriving Repr, DecidableEq

/-- `get_file_info` (Plagiarism_check.py lines 53-64): the `(file_name,
file_size)` key. -/
def fileKey (f : PFile) : String × Nat :=
  (f.name, f.size)

/-- The files removed by `remove_duplicates_and_matches` (Plagiarism_check.py
lines 126-149): group the candidate files by `(name, size)`; if the key
also occurs in the reference scan, every file of the group is removed;
otherwise, in a group with several files the first is kept and the rest
are removed. No content or hash comparison is ever performed. -/
def plagDeleted (bFiles dFiles : List PFile) : List PFile :=
  (groupByKey fileKey dFiles).flatMap fun kps =>
    if bFiles.any (fun b => fileKey b = kps.1) then kps.2
    else if 1 < kps.2.length then kps.2.tail
    else []

/-! ### Deletion executor (`Files.py` lines 81-93, `folder.py` lines 104-118) -/

/-- Outcome of one `safe_delete_file` / `safe_delete_folder` call: the
filesystem (as the list of existing paths), the returned Bool, whether a
"deletion failed" record was written, and whether a deletion record was
written. -/
structure DeleteResult where
  fs : List String
  ok : Bool
  failureLogged : Bool
  deletionLogged : Bool
deriving Repr, DecidableEq

/-- `safe_delete_file` (Files.py lines 81-93): if the target exists, remove
it (an I/O fault — the `except` branch — logs a failure and returns False);
if the target does not exist, return False with nothing written. -/
def safe_delete_file (fault : String → Bool) (fs : List String) (p : String) :
    DeleteResult :=
  if p ∈ fs then
    if fault p then ⟨fs, false, true, false⟩
    else ⟨fs.erase p, true, false, true⟩
  else ⟨fs, false, false, false⟩

/-- `safe_delete_folder` (folder.py lines 104-118): same logic with
`shutil.rmtree` in place of `os.remove`. -/
def safe_delete_folder (fault : String → Bool) (fs : List String) (p : String) :
    DeleteResult :=
  if p ∈ fs then
    if fault p then ⟨fs, false, true, false⟩
    else ⟨fs.erase p, true, false, true⟩
  else ⟨fs, false, false, false⟩

/-- The executor loop of `process_regular_files` (Files.py lines 150-154):
apply the plan in order, counting the deletions that returned True; the
surrounding function then returns True unconditionally. -/
def applyPlan (fault : String → Bool) (fs : List String) (plan : List String) :
    List String × Nat :=
  plan.foldl
    (fun st p =>
      let r := safe_delete_file fault st.1 p
      (r.fs, if r.ok then st.2 + 1 else st.2))
    (fs, 0)

/-! ### `check.py`: set-based containment without prefilter -/

/-- `content_set1.issubset(content_set2)` on entry-tuple sets. -/
def issubset (s1 s2 : List (String × Nat)) : Bool :=
  s1.all (fun e => e ∈ s2)

/-- `find_archive_containment` (check.py lines 243-289): pairwise scan with
a `contained_archives` set; `set1 ⊆ set2` marks archive1 as contained in
archive2 (and symmetrically via the `elif`), with no size-ratio prefilter
and no cardinality requirement. Returns (container, contained) pairs in
discovery order. `find_directory_containment` (lines 355-401) is the same
code over directory listings. -/
def find_archive_containment (archives : List (String × List (String × Nat))) :
    List (String × String) :=
  (archives.foldl
    (fun st a1 =>
      if a1.1 ∈ st.1 then st
      else
        archives.foldl
          (fun st2 a2 =>
            if a1.1 = a2.1 || decide (a2.1 ∈ st2.1) then st2
            else if issubset a1.2 a2.2 then (a1.1 :: st2.1, st2.2 ++ [(a2.1, a1.1)])
            else if issubset a2.2 a1.2 then (a2.1 :: st2.1, st2.2 ++ [(a1.1, a2.1)])
            else st2)
          st)
    (([], []) : List String × List (String × String))).2

/-! ### Helper lemmas -/

theorem pairKey_inj {a b c d : String} (h : pairKey a b = pairKey c d) :
    (a = c ∧ b = d) ∨ (a = d ∧ b = c) := by
  unfold pairKey at h
  by_cases h1 : a ≤ b <;> by_cases h2 : c ≤ d <;>
    simp only [h1, h2, if_pos, if_neg, if_true, if_false, Prod.mk.injEq] at h <;>
    tauto

theorem pathJoin_right_inj {folder a b : String} (h : pathJoin folder a = pathJoin folder b) :
    a = b := by
  unfold pathJoin at h
  have hd := congrArg String.data h
  simp only [String.data_append, List.append_assoc] at hd
  exact String.ext (List.append_cancel_left (List.append_cancel_left hd))

theorem lookupSize_mem {c : Contents} {k : String} {v : Nat}
    (h : lookupSize c k = some v) : (k, v) ∈ c := by
  unfold lookupSize at h
  match hf : c.find? (fun e => e.1 = k) with
  | none => rw [hf] at h; simp at h
  | some e =>
    rw [hf] at h
    have he2 : e.2 = v := by simpa using h
    have he1 : e.1 = k := by simpa using List.find?_some hf
    have hmem := List.mem_of_find?_eq_some hf
    have : e = (k, v) := by
      cases e
      simp_all
    rwa [this] at hmem

theorem sumSizes_le_of_subset :
    ∀ (s l : Contents), (s.map Prod.fst).Nodup → (∀ e ∈ s, e ∈ l) →
      sumSizes s ≤ sumSizes l := by
  intro s l hN hsub
  have hsN : s.Nodup := hN.of_map
  have hsp : s.Subperm l := List.subperm_of_subset hsN (fun x hx => hsub x hx)
  obtain ⟨t, hperm, hsl⟩ := hsp
  have h1 : sumSizes s = sumSizes t := by
    have := (hperm.map Prod.snd).sum_eq
    simpa [sumSizes] using this.symm
  have h2 : sumSizes t ≤ sumSizes l := by
    have hsl2 : List.Sublist (t.map Prod.snd) (l.map Prod.snd) := hsl.map Prod.snd
    exact List.Sublist.sum_le_sum hsl2 (by simp)
  omega

theorem mem_keysInOrder {key : α → κ} [DecidableEq κ] {l : List α} {k : κ} :
    k ∈ keysInOrder key l ↔ ∃ x ∈ l, key x = k := by
  induction l with
  | nil => simp [keysInOrder]
  | cons x xs ih =>
    constructor
    · intro hmem
      rcases List.mem_cons.mp hmem with heq | hflt
      · exact ⟨x, List.mem_cons_self x xs, heq.symm⟩
      · have hks : k ∈ keysInOrder key xs := (List.mem_filter.mp hflt).1
        obtain ⟨y, hy, hk⟩ := ih.mp hks
        exact ⟨y, List.mem_cons_of_mem x hy, hk⟩
    · rintro ⟨y, hy, hk⟩
      rcases List.mem_cons.mp hy with rfl | hyxs
      · simp [keysInOrder, hk.symm]
      · by_cases hkx : k = key x
        · simp [keysInOrder, hkx]
        · refine List.mem_cons_of_mem _ (List.mem_filter.mpr ⟨ih.mpr ⟨y, hyxs, hk⟩, ?_⟩)
          simpa using hkx

theorem mem_groupByKey {key : α → κ} [DecidableEq κ] {l : List α}
    {k : κ} {ps : List α} (h : (k, ps) ∈ groupByKey key l) :
    k ∈ keysInOrder key l ∧ ps = l.filter (fun x => key x = k) := by
  unfold groupByKey at h
  obtain ⟨k2, hk2, heq⟩ := List.mem_map.mp h
  have h1 : k2 = k := congrArg Prod.fst heq
  have h2 : l.filter (fun x => key x = k2) = ps := congrArg Prod.snd heq
  subst h1
  exact ⟨hk2, h2.symm⟩

theorem groupByKey_elem_mem {key : α → κ} [DecidableEq κ] {l : List α}
    {k : κ} {ps : List α} (h : (k, ps) ∈ groupByKey key l) :
    ∀ x ∈ ps, x ∈ l ∧ key x = k := by
  intro x hx
  rw [(mem_groupByKey h).2] at hx
  have := List.mem_filter.mp hx
  exact ⟨this.1, by simpa using this.2⟩

theorem get_regular_files_mem {folder : String} {ents : List FsEntry} {r : RegFile}
    (h : r ∈ get_regular_files folder ents) :
    ∃ e ∈ ents, r = ⟨e.name, e.size, pathJoin folder e.name⟩ ∧ e.isFile = true ∧
      lowerStr (splitextExt e.name) ∉ archiveExtensions := by
  unfold get_regular_files at h
  obtain ⟨e, he, hr⟩ := List.mem_filterMap.mp h
  by_cases hc : e.isFile && decide (lowerStr (splitextExt e.name) ∉ archiveExtensions)
  · rw [if_pos hc] at hr
    have hp := Option.some.inj hr
    have hand := Bool.and_eq_true_iff.mp hc
    exact ⟨e, he, hp.symm, hand.1, of_decide_eq_true hand.2⟩
  · rw [if_neg hc] at hr
    simp at hr

theorem scan_archives_mem {lc : String → Option Contents} {folder : String}
    {ents : List FsEntry} {x : String × ArchiveData}
    (h : x ∈ scan_archives lc folder ents) :
    ∃ e ∈ ents, x.1 = pathJoin folder e.name ∧ e.isFile = true ∧
      lowerStr (splitextExt e.name) ∈ [".zip", ".rar"] ∧
      ∃ c, lc (pathJoin folder e.name) = some c ∧ x.2 = mkArchiveData c := by
  unfold scan_archives at h
  obtain ⟨e, he, hr⟩ := List.mem_filterMap.mp h
  by_cases hc : e.isFile && decide (lowerStr (splitextExt e.name) ∈ [".zip", ".rar"])
  · rw [if_pos hc] at hr
    have hand := Bool.and_eq_true_iff.mp hc
    match hl : lc (pathJoin folder e.name) with
    | none => rw [hl] at hr; simp at hr
    | some c =>
      rw [hl] at hr
      have hp := Option.some.inj hr
      refine ⟨e, he, ?_, hand.1, of_decide_eq_true hand.2, c, hl, ?_⟩
      · exact congrArg Prod.fst hp.symm
      · exact congrArg Prod.snd hp.symm
  · rw [if_neg hc] at hr
    simp at hr

theorem scan_folders_mem {sc : String → Contents} {folder : String}
    {ents : List FsEntry} {x : String × ArchiveData}
    (h : x ∈ scan_folders sc folder ents) :
    ∃ e ∈ ents, x.1 = pathJoin folder e.name ∧ e.isFile = false ∧
      x.2 = mkArchiveData (sc (pathJoin folder e.name)) := by
  unfold scan_folders at h
  obtain ⟨e, he, hr⟩ := List.mem_filterMap.mp h
  by_cases hf : e.isFile
  · rw [if_neg (by simp [hf])] at hr
    simp at hr
  · rw [if_pos (by simp [hf])] at hr
    by_cases hne : sc (pathJoin folder e.name) ≠ []
    · rw [if_pos (by simpa using hne)] at hr
      have hp := Option.some.inj hr
      refine ⟨e, he, congrArg Prod.fst hp.symm, by simpa using hf, congrArg Prod.snd hp.symm⟩
    · rw [if_neg (by simpa using hne)] at hr
      simp at hr

theorem process_regular_files_mem {hashOf : String → Option String}
    {filesA filesC : List RegFile} {p : String}
    (h : p ∈ process_regular_files hashOf filesA filesC) :
    ∃ c ∈ filesC, p = c.path ∧
      ∃ a, filesA.find? (fun x => x.name = c.name ∧ x.size = c.size) = some a ∧
        a ∈ filesA ∧ a.name = c.name ∧ a.size = c.size ∧
        ∃ hv, hashOf c.path = some hv ∧ hashOf a.path = some hv := by
  unfold process_regular_files at h
  obtain ⟨c, hc, hr⟩ := List.mem_filterMap.mp h
  match hf : filesA.find? (fun x => x.name = c.name ∧ x.size = c.size) with
  | none => rw [hf] at hr; simp at hr
  | some a =>
    have hmem := List.mem_of_find?_eq_some hf
    have hpred : a.name = c.name ∧ a.size = c.size := by
      simpa using List.find?_some hf
    rw [hf] at hr
    have hval : (match hashOf c.path, hashOf a.path with
      | some ch, some ah => if ch = ah then some c.path else none
      | _, _ => none) = some p := hr
    match hch : hashOf c.path, hah : hashOf a.path with
    | some ch, some ah =>
      simp only [hch, hah] at hval
      by_cases heq : ch = ah
      · rw [if_pos heq] at hval
        have hp := Option.some.inj hval
        exact ⟨c, hc, hp.symm, a, hf, hmem, hpred.1, hpred.2, ch, hch, heq ▸ hah⟩
      · rw [if_neg heq] at hval
        simp at hval
    | some ch, none => simp [hch, hah] at hval
    | none, some ah => simp [hch, hah] at hval
    | none, none => simp [hch, hah] at hval

theorem pass22Aux_mem {refs : List (String × ArchiveData)} :
    ∀ {cands : List (String × ArchiveData)} {toDel : List String}
      {d : (String × ArchiveData) × (String × ArchiveData)},
      d ∈ pass22Aux refs cands toDel →
      d.1 ∈ cands ∧
        refs.find? (fun a => are_archives_identical a.2 d.1.2) = some d.2 := by
  intro cands
  induction cands with
  | nil => intro toDel d h; simp [pass22Aux] at h
  | cons c cs ih =>
    intro toDel d h
    unfold pass22Aux at h
    match hf : refs.find? (fun a => are_archives_identical a.2 c.2) with
    | none =>
      rw [hf] at h
      have := ih h
      exact ⟨List.mem_cons_of_mem c this.1, this.2⟩
    | some a =>
      rw [hf] at h
      have h2 : d ∈ (if c.1 ∈ toDel then pass22Aux refs cs toDel
          else (c, a) :: pass22Aux refs cs (toDel ++ [c.1])) := h
      by_cases hin : c.1 ∈ toDel
      · rw [if_pos hin] at h2
        have := ih h2
        exact ⟨List.mem_cons_of_mem c this.1, this.2⟩
      · rw [if_neg hin] at h2
        rcases List.mem_cons.mp h2 with rfl | htl
        · exact ⟨List.mem_cons_self c cs, hf⟩
        · have := ih htl
          exact ⟨List.mem_cons_of_mem c this.1, this.2⟩

theorem scanRefs_ok_some {ex : String → Bool} {c : String × ArchiveData}
    {toDel : List String} :
    ∀ {refs : List (String × ArchiveData)} {proc proc2 : List (String × String)}
      {a : String × ArchiveData},
      scanRefs ex c toDel refs proc = Except.ok (some a, proc2) →
      a ∈ refs ∧ ratioGt15 c.2.total_size a.2.total_size = Except.ok false ∧
        is_archive_contained c.2 a.2 = true ∧ c.2.file_count < a.2.file_count := by
  intro refs
  induction refs with
  | nil => intro proc proc2 a h; simp [scanRefs] at h
  | cons r rest ih =>
    intro proc proc2 a h
    unfold scanRefs at h
    by_cases hpk : pairKey c.1 r.1 ∈ proc
    · rw [if_pos hpk] at h
      have := ih h
      exact ⟨List.mem_cons_of_mem r this.1, this.2⟩
    · rw [if_neg hpk] at h
      match hrt : ratioGt15 c.2.total_size r.2.total_size with
      | Except.error e => rw [hrt] at h; simp at h
      | Except.ok true =>
        rw [hrt] at h
        have := ih h
        exact ⟨List.mem_cons_of_mem r this.1, this.2⟩
      | Except.ok false =>
        rw [hrt] at h
        have h2 : (if is_archive_contained c.2 r.2 && decide (c.2.file_count < r.2.file_count)
            then (if decide (c.1 ∉ toDel) && ex c.1
              then Except.ok (some r, pairKey c.1 r.1 :: proc)
              else scanRefs ex c toDel rest (pairKey c.1 r.1 :: proc))
            else scanRefs ex c toDel rest (pairKey c.1 r.1 :: proc)) =
            Except.ok (some a, proc2) := h
        by_cases hcond : is_archive_contained c.2 r.2 && decide (c.2.file_count < r.2.file_count)
        · rw [if_pos hcond] at h2
          by_cases hgate : decide (c.1 ∉ toDel) && ex c.1
          · rw [if_pos hgate] at h2
            have hpair := Except.ok.inj h2
            have hra : r = a := Option.some.inj (congrArg Prod.fst hpair)
            subst hra
            have hand := Bool.and_eq_true_iff.mp hcond
            exact ⟨List.mem_cons_self r rest, hrt, hand.1, of_decide_eq_true hand.2⟩
          · rw [if_neg hgate] at h2
            have := ih h2
            exact ⟨List.mem_cons_of_mem r this.1, this.2⟩
        · rw [if_neg hcond] at h2
          have := ih h2
          exact ⟨List.mem_cons_of_mem r this.1, this.2⟩

theorem pass23Aux_mem {ex : String → Bool} {refs : List (String × ArchiveData)} :
    ∀ {cands : List (String × ArchiveData)} {toDel : List String}
      {proc : List (String × String)}
      {ds : List ((String × ArchiveData) × (String × ArchiveData))},
      pass23Aux ex refs cands toDel proc = Except.ok ds →
      ∀ d ∈ ds, d.1 ∈ cands ∧ d.2 ∈ refs ∧
        ratioGt15 d.1.2.total_size d.2.2.total_size = Except.ok false := by
  intro cands
  induction cands with
  | nil =>
    intro toDel proc ds h d hd
    unfold pass23Aux at h
    have : ds = [] := (Except.ok.inj h).symm
    subst this
    simp at hd
  | cons c cs ih =>
    intro toDel proc ds h d hd
    unfold pass23Aux at h
    match hs : scanRefs ex c toDel refs proc with
    | Except.error e => rw [hs] at h; simp at h
    | Except.ok (none, proc2) =>
      rw [hs] at h
      have := ih h d hd
      exact ⟨List.mem_cons_of_mem c this.1, this.2⟩
    | Except.ok (some a, proc2) =>
      rw [hs] at h
      have h2 : (match pass23Aux ex refs cs (toDel ++ [c.1]) proc2 with
        | Except.error e => Except.error e
        | Except.ok ds2 => Except.ok ((c, a) :: ds2)) = Except.ok ds := h
      match hrec : pass23Aux ex refs cs (toDel ++ [c.1]) proc2 with
      | Except.error e => rw [hrec] at h2; simp at h2
      | Except.ok ds2 =>
        rw [hrec] at h2
        have hds : (c, a) :: ds2 = ds := Except.ok.inj h2
        subst hds
        rcases List.mem_cons.mp hd with rfl | htl
        · have := scanRefs_ok_some hs
          exact ⟨List.mem_cons_self c cs, this.1, this.2.1⟩
        · have := ih hrec d htl
          exact ⟨List.mem_cons_of_mem c this.1, this.2⟩

theorem selfDedup_subset_paths {cands : List (String × ArchiveData)} :
    ∀ p ∈ selfDedup cands, p ∈ cands.map Prod.fst := by
  intro p hp
  unfold selfDedup at hp
  obtain ⟨⟨k, ps⟩, hkps, hpin⟩ := List.mem_flatMap.mp hp
  by_cases hlen : 1 < ps.length
  · rw [if_pos hlen] at hpin
    have htail : p ∈ ps.map Prod.fst := List.mem_of_mem_tail hpin
    obtain ⟨x, hx, hxp⟩ := List.mem_map.mp htail
    have hxc := (groupByKey_elem_mem hkps x hx).1
    exact hxp ▸ List.mem_map_of_mem Prod.fst hxc
  · rw [if_neg hlen] at hpin
    simp at hpin

theorem plagDeleted_mem {bFiles dFiles : List PFile} {f : PFile}
    (h : f ∈ plagDeleted bFiles dFiles) :
    ∃ k ps, (k, ps) ∈ groupByKey fileKey dFiles ∧
      ((bFiles.any (fun b => fileKey b = k) = true ∧ f ∈ ps) ∨
        (bFiles.any (fun b => fileKey b = k) = false ∧ 1 < ps.length ∧ f ∈ ps.tail)) := by
  unfold plagDeleted at h
  obtain ⟨⟨k, ps⟩, hkps, hin⟩ := List.mem_flatMap.mp h
  refine ⟨k, ps, hkps, ?_⟩
  by_cases hb : bFiles.any (fun b => fileKey b = k)
  · rw [if_pos hb] at hin
    exact Or.inl ⟨hb, hin⟩
  · rw [if_neg hb] at hin
    by_cases hlen : 1 < ps.length
    · rw [if_pos hlen] at hin
      exact Or.inr ⟨Bool.of_not_eq_true hb, hlen, hin⟩
    · rw [if_neg hlen] at hin
      simp at hin

/-! ### Claim C1 -/

/-- C1 counterexample: the claim says no file is deleted when only its name
and size, but not its content, match the kept file. In
`remove_duplicates_and_matches` the candidate file D/x (content bytes
9,9,9) is deleted because a reference file named x of size 3 exists in B,
although every retained file (the B file, content 1,2,3, and the remaining
D files) has different byte content: the pass never compares content. -/
theorem c1_counterexample :
    (⟨"D/x", "x", 3, [9, 9, 9]⟩ : PFile) ∈
      plagDeleted [⟨"B/x", "x", 3, [1, 2, 3]⟩] [⟨"D/x", "x", 3, [9, 9, 9]⟩] ∧
    ∀ k ∈ ([⟨"B/x", "x", 3, [1, 2, 3]⟩] : List PFile) ++
        ([⟨"D/x", "x", 3, [9, 9, 9]⟩] : List PFile).filter
          (fun f => f ∉ plagDeleted [⟨"B/x", "x", 3, [1, 2, 3]⟩]
            [⟨"D/x", "x", 3, [9, 9, 9]⟩]),
      k.content ≠ [9, 9, 9] := by
  decide

/-- C1 amended: every file deleted by the hash-verified plain-file pass
(`process_regular_files`) has a retained reference file with the same name,
the same size and an identical content hash; the name-size pass
(`remove_duplicates_and_matches`) guarantees only that some retained file
(in B, or the kept first copy in D) has the same name and size — its
content is never compared. -/
theorem c1_amended_deletion_guarantees (hashOf : String → Option String)
    (filesA filesC : List RegFile) (bFiles dFiles : List PFile)
    (hdN : dFiles.Nodup) :
    (∀ p ∈ process_regular_files hashOf filesA filesC,
      ∃ c ∈ filesC, p = c.path ∧ ∃ a ∈ filesA, a.name = c.name ∧ a.size = c.size ∧
        ∃ hv, hashOf c.path = some hv ∧ hashOf a.path = some hv) ∧
    (∀ f ∈ plagDeleted bFiles dFiles,
      (∃ kb ∈ bFiles, kb.name = f.name ∧ kb.size = f.size) ∨
      (∃ kd ∈ dFiles, kd ∉ plagDeleted bFiles dFiles ∧ kd ≠ f ∧
        kd.name = f.name ∧ kd.size = f.size)) := by
  constructor
  · intro p hp
    obtain ⟨c, hc, hpath, a, _, hmem, hname, hsize, hv, hch, hah⟩ :=
      process_regular_files_mem hp
    exact ⟨c, hc, hpath, a, hmem, hname, hsize, hv, hch, hah⟩
  · intro f hf
    obtain ⟨k, ps, hkps, hcase⟩ := plagDeleted_mem hf
    have hps : ps = dFiles.filter (fun x => fileKey x = k) := (mem_groupByKey hkps).2
    rcases hcase with ⟨hb, hfp⟩ | ⟨hb, hlen, hft⟩
    · obtain ⟨kb, hkb, hkey⟩ := List.any_eq_true.mp hb
      have hfk : fileKey f = k := (groupByKey_elem_mem hkps f hfp).2
      have hkk : fileKey kb = fileKey f := by
        rw [hfk]; exact of_decide_eq_true hkey
      unfold fileKey at hkk
      exact Or.inl ⟨kb, hkb, congrArg Prod.fst hkk, congrArg Prod.snd hkk⟩
    · match ps, hkps, hps, hlen, hft with
      | [], _, _, hlen, _ => simp at hlen
      | e :: tl, hkps, hps, hlen, hft =>
        have hft2 : f ∈ tl := by simpa using hft
        have hfin : f ∈ e :: tl := List.mem_cons_of_mem e hft2
        have hein : e ∈ e :: tl := List.mem_cons_self e tl
        have hed := groupByKey_elem_mem hkps e hein
        have hfd := groupByKey_elem_mem hkps f hfin
        have hpsN : (e :: tl).Nodup := by rw [hps]; exact hdN.filter _
        have hnef : e ≠ f := by
          intro hcontra
          exact (List.nodup_cons.mp hpsN).1 (hcontra ▸ hft2)
        have hkey : fileKey e = fileKey f := by rw [hed.2, hfd.2]
        refine Or.inr ⟨e, hed.1, ?_, hnef, congrArg Prod.fst hkey,
          congrArg Prod.snd hkey⟩
        intro hedel
        obtain ⟨k2, ps2, hkps2, hcase2⟩ := plagDeleted_mem hedel
        have hk2 : k2 = k := by
          rcases hcase2 with ⟨_, hep⟩ | ⟨_, _, hep⟩
          · rw [← (groupByKey_elem_mem hkps2 e hep).2, hed.2]
          · have := (groupByKey_elem_mem hkps2 e (List.mem_of_mem_tail hep)).2
            rw [← this, hed.2]
        subst hk2
        have hps2eq : ps2 = e :: tl := by
          rw [(mem_groupByKey hkps2).2, ← hps]
        rcases hcase2 with ⟨hb2, _⟩ | ⟨_, _, hep⟩
        · rw [hb2] at hb; simp at hb
        · rw [hps2eq] at hep
          exact (List.nodup_cons.mp hpsN).1 (by simpa using hep)

/-- C1 amended witness: one concrete run of the hash-verified pass. -/
theorem c1_amended_witness :
    ∃ c ∈ ([⟨"f", 3, "C/f"⟩] : List RegFile), "C/f" = c.path ∧
      ∃ a ∈ ([⟨"f", 3, "A/f"⟩] : List RegFile), a.name = c.name ∧ a.size = c.size ∧
        ∃ hv, (fun _ : String => some "h") c.path = some hv ∧
          (fun _ : String => some "h") a.path = some hv :=
  (c1_amended_deletion_guarantees (fun _ => some "h") [⟨"f", 3, "A/f"⟩]
    [⟨"f", 3, "C/f"⟩] [] [] (by decide)).1 "C/f" (by decide)

/-! ### Claim C2 -/

/-- C2 counterexample: the claim says the keeper of a group of identical
candidates is deterministically the lexically smallest path. With the
candidate set scanned in the order C/b, C/a (two archives with identical
contents), `selfDedup` deletes C/a — the lexically smallest of the two —
and keeps C/b, the first one encountered. -/
theorem c2_counterexample :
    selfDedup [("C/b", mkArchiveData [("f", 1)]), ("C/a", mkArchiveData [("f", 1)])] =
      ["C/a"] ∧ ("C/a" : String) < "C/b" := by
  constructor
  · rfl
  · rw [String.lt_iff_toList_lt]
    decide

/-- C2 amended: in every content group with more than one member, exactly
one member is kept — the first encountered in scan order, i.e. the head of
the group — and every other member is deleted. -/
theorem c2_amended_first_encountered_keeper (cands : List (String × ArchiveData))
    (hN : (cands.map Prod.fst).Nodup) :
    ∀ kps ∈ groupByKey (fun pd => contentKey pd.2) cands, 1 < kps.2.length →
      ∃ keep rest, kps.2.map Prod.fst = keep :: rest ∧ rest ≠ [] ∧
        keep ∉ selfDedup cands ∧ ∀ p ∈ rest, p ∈ selfDedup cands := by
  rintro ⟨k, ps⟩ hkps hlen
  have hps : ps = cands.filter (fun pd => contentKey pd.2 = k) := (mem_groupByKey hkps).2
  match ps, hkps, hps, hlen with
  | [], _, _, hlen => simp at hlen
  | e :: tl, hkps, hps, hlen =>
    refine ⟨e.1, tl.map Prod.fst, by simp, ?_, ?_, ?_⟩
    · have h0 : 0 < tl.length := by
        simp only [List.length_cons] at hlen
        omega
      intro hcontra
      rw [List.map_eq_nil_iff] at hcontra
      rw [hcontra] at h0
      simp at h0
    · intro hedel
      obtain ⟨⟨k2, ps2⟩, hkps2, hin2⟩ := List.mem_flatMap.mp hedel
      by_cases hlen2 : 1 < ps2.length
      · rw [if_pos hlen2] at hin2
        have hps2f : ps2 = cands.filter (fun pd => contentKey pd.2 = k2) :=
          (mem_groupByKey hkps2).2
        match ps2, hkps2, hps2f, hin2 with
        | [], _, _, hin2 => simp at hin2
        | e2 :: tl2, hkps2, hps2f, hin2 =>
          simp only [List.map_cons, List.tail_cons] at hin2
          obtain ⟨y, hy, hyp⟩ := List.mem_map.mp hin2
          have hyin : y ∈ e2 :: tl2 := List.mem_cons_of_mem e2 hy
          have hyc := groupByKey_elem_mem hkps2 y hyin
          have hein : e ∈ e :: tl := List.mem_cons_self e tl
          have hec := groupByKey_elem_mem hkps e hein
          have hye : y = e := List.inj_on_of_nodup_map hN hyc.1 hec.1 hyp
          have hk2k : k2 = k := by rw [← hyc.2, hye, hec.2]
          have hpseq : e2 :: tl2 = e :: tl := by
            rw [hps2f, hk2k, ← hps]
          have hpsN : ((e :: tl).map Prod.fst).Nodup := by
            rw [hps]
            exact hN.sublist ((List.filter_sublist cands).map Prod.fst)
          simp only [List.map_cons, List.nodup_cons] at hpsN
          apply hpsN.1
          have hetl2 : e ∈ tl2 := hye ▸ hy
          have htl2 : tl2 = tl := by
            have := congrArg List.tail hpseq
            simpa using this
          rw [htl2] at hetl2
          exact List.mem_map_of_mem Prod.fst hetl2
      · rw [if_neg hlen2] at hin2
        simp at hin2
    · intro p hp
      refine List.mem_flatMap.mpr ⟨(k, e :: tl), hkps, ?_⟩
      have hlen2 : 1 < (k, e :: tl).2.length := hlen
      rw [if_pos hlen2]
      simpa using hp

/-- C2 amended witness: a concrete two-member group. -/
theorem c2_amended_witness :
    ∃ keep rest,
      ([("C/b", mkArchiveData [("f", 1)]), ("C/a", mkArchiveData [("f", 1)])].map
        Prod.fst) = keep :: rest ∧ rest ≠ [] ∧
      keep ∉ selfDedup [("C/b", mkArchiveData [("f", 1)]), ("C/a", mkArchiveData [("f", 1)])] ∧
      ∀ p ∈ rest,
        p ∈ selfDedup [("C/b", mkArchiveData [("f", 1)]), ("C/a", mkArchiveData [("f", 1)])] := by
  have h := c2_amended_first_encountered_keeper
    [("C/b", mkArchiveData [("f", 1)]), ("C/a", mkArchiveData [("f", 1)])] (by decide)
    (contentKey (mkArchiveData [("f", 1)]),
      [("C/b", mkArchiveData [("f", 1)]), ("C/a", mkArchiveData [("f", 1)])])
    (by decide) (by decide)
  simpa using h

/-! ### Claim C3 -/

/-- C3 counterexample: the claim says equal-cardinality equal-content pairs
are never classified as containment. `find_archive_containment` (check.py),
given two archives with literally identical content sets, classifies the
first as contained in the second (`issubset` holds in both directions and
the first branch fires), although their entry counts are equal, not
strictly ordered. -/
theorem c3_counterexample :
    find_archive_containment [("E/a1", [("f", 5)]), ("E/a2", [("f", 5)])] =
      [("E/a2", "E/a1")] ∧
    ¬ ([("f", 5)] : List (String × Nat)).length < ([("f", 5)] : List (String × Nat)).length := by
  constructor
  · rfl
  · simp

/-- C3 amended: in the archive/folder passes, whose containment
classification is `is_archive_contained small large` together with the
explicit cardinality check `file_count small < file_count large`
(Compressed_package.py line 247, folder.py line 209), a classified pair
satisfies `entryCount small < entryCount large` and
`totalSize small ≤ totalSize large`; `check.py`'s `find_archive_containment`
lacks both checks and classifies equal-content pairs as containment. -/
theorem c3_amended_containment_bounds (small large : ArchiveData)
    (hts : small.total_size = sumSizes small.contents)
    (htl : large.total_size = sumSizes large.contents)
    (hN : (small.contents.map Prod.fst).Nodup)
    (hcont : is_archive_contained small large = true)
    (hcnt : small.file_count < large.file_count) :
    small.file_count < large.file_count ∧ small.total_size ≤ large.total_size := by
  refine ⟨hcnt, ?_⟩
  unfold is_archive_contained at hcont
  rw [if_neg (by omega)] at hcont
  have hall := List.all_eq_true.mp hcont
  have hsub : ∀ e ∈ small.contents, e ∈ large.contents := by
    intro e he
    have hbeq : lookupSize large.contents e.1 == some e.2 := hall e he
    have heq : lookupSize large.contents e.1 = some e.2 := eq_of_beq hbeq
    have := lookupSize_mem heq
    simpa using this
  rw [hts, htl]
  exact sumSizes_le_of_subset small.contents large.contents hN hsub

/-- C3 amended witness: a concrete classified containment pair. -/
theorem c3_amended_witness :
    (mkArchiveData [("a", 5)]).file_count < (mkArchiveData [("a", 5), ("b", 1)]).file_count ∧
    (mkArchiveData [("a", 5)]).total_size ≤ (mkArchiveData [("a", 5), ("b", 1)]).total_size :=
  c3_amended_containment_bounds (mkArchiveData [("a", 5)])
    (mkArchiveData [("a", 5), ("b", 1)]) rfl rfl (by decide) (by decide) (by decide)

/-! ### Claim C4 -/

/-- C4 counterexample: the claim says every containment evaluation skips a
pair whose size ratio exceeds 0.15 before the subset scan runs.
`find_archive_containment` (check.py) applies no size-ratio prefilter: for
two archives with totals 30 and 60 (ratio 0.5 > 0.15) it still classifies
the small one as contained in the big one. -/
theorem c4_counterexample :
    find_archive_containment
      [("E/small", [("a", 10), ("b", 20)]), ("E/big", [("a", 10), ("b", 20), ("c", 30)])] =
      [("E/big", "E/small")] ∧
    ratioGt15 (sumSizes [("a", 10), ("b", 20)])
      (sumSizes [("a", 10), ("b", 20), ("c", 30)]) = Except.ok true := by
  constructor
  · rfl
  · rfl

/-- C4 amended: in the containment passes of `process_archives` and
`process_folders` (pass 2.3), every produced containment decision passed
the size-ratio prefilter — the ratio test evaluated to `ok false`, i.e. the
pair's ratio does not exceed 0.15; `check.py`'s containment functions apply
no such prefilter. -/
theorem c4_amended_prefilter_in_process_passes (ex : String → Bool)
    (refs cands : List (String × ArchiveData))
    (ds : List ((String × ArchiveData) × (String × ArchiveData)))
    (h : pass23 ex refs cands = Except.ok ds) :
    ∀ d ∈ ds, ratioGt15 d.1.2.total_size d.2.2.total_size = Except.ok false :=
  fun d hd => (pass23Aux_mem h d hd).2.2

/-- C4 amended witness: a concrete pass-2.3 decision satisfies the
prefilter. -/
theorem c4_amended_witness :
    ratioGt15 (mkArchiveData [("a", 100)]).total_size
      (mkArchiveData [("a", 100), ("b", 10)]).total_size = Except.ok false :=
  c4_amended_prefilter_in_process_passes (fun _ => true)
    [("A/a", mkArchiveData [("a", 100), ("b", 10)])]
    [("C/c", mkArchiveData [("a", 100)])]
    [(("C/c", mkArchiveData [("a", 100)]), ("A/a", mkArchiveData [("a", 100), ("b", 10)]))]
    (by rfl)
    (("C/c", mkArchiveData [("a", 100)]), ("A/a", mkArchiveData [("a", 100), ("b", 10)]))
    (by decide)

/-! ### Claim C6 -/

/-- C6: deleting a target that no longer exists is not an error:
`safe_delete_file` / `safe_delete_folder` check existence first and, for an
absent target, return False with no failure record written and the
filesystem unchanged (the exception branch, which writes the failure
record, is unreachable); re-running a whole plan against an already-cleaned
state removes nothing, writes no failure record, and the surrounding pass
still returns success (`process_regular_files` returns True
unconditionally, so the process exit status stays 0). -/
theorem c6_idempotent_executor (fault : String → Bool) (fs : List String)
    (p : String) (plan : List String) (hp : p ∉ fs)
    (hplan : ∀ q ∈ plan, q ∉ fs) :
    safe_delete_file fault fs p = ⟨fs, false, false, false⟩ ∧
    safe_delete_folder fault fs p = ⟨fs, false, false, false⟩ ∧
    applyPlan fault fs plan = (fs, 0) := by
  refine ⟨by simp [safe_delete_file, hp], by simp [safe_delete_folder, hp], ?_⟩
  induction plan with
  | nil => rfl
  | cons q qs ih =>
    have hq : q ∉ fs := hplan q (List.mem_cons_self q qs)
    have hstep : safe_delete_file fault fs q = ⟨fs, false, false, false⟩ := by
      simp [safe_delete_file, hq]
    have hred : applyPlan fault fs (q :: qs) = applyPlan fault fs qs := by
      unfold applyPlan
      simp [List.foldl_cons, hstep]
    rw [hred]
    exact ih (fun x hx => hplan x (List.mem_cons_of_mem q hx))

/-- C6 witness: a concrete absent target and already-cleaned plan. -/
theorem c6_witness :
    safe_delete_file (fun _ => false) ["a"] "b" = ⟨["a"], false, false, false⟩ ∧
    safe_delete_folder (fun _ => false) ["a"] "b" = ⟨["a"], false, false, false⟩ ∧
    applyPlan (fun _ => false) ["a"] ["b", "c"] = (["a"], 0) :=
  c6_idempotent_executor (fun _ => false) ["a"] "b" ["b", "c"] (by decide) (by decide)

/-! ### Claim C7 -/

/-- C7: for a same-name same-size candidate/reference file pair, a hash
computation failure on either side (the hash oracle returning none, as
`calculate_file_hash` does on error) makes `process_regular_files` skip the
pair: the candidate path never enters the deletion list. -/
theorem c7_hash_failure_skip (hashOf : String → Option String)
    (filesA filesC : List RegFile) (c a : RegFile)
    (hN : (filesC.map RegFile.path).Nodup)
    (hc : c ∈ filesC)
    (ha : filesA.find? (fun x => x.name = c.name ∧ x.size = c.size) = some a)
    (hfail : hashOf c.path = none ∨ hashOf a.path = none) :
    c.path ∉ process_regular_files hashOf filesA filesC := by
  intro hmem
  obtain ⟨c2, hc2, hpath, a2, hfind2, _, _, _, hv, hch, hah⟩ :=
    process_regular_files_mem hmem
  have hcc : c2 = c := List.inj_on_of_nodup_map hN hc2 hc hpath.symm
  subst hcc
  rw [ha] at hfind2
  have haa : a2 = a := (Option.some.inj hfind2).symm
  subst haa
  rcases hfail with hn | hn
  · rw [hn] at hch; exact Option.noConfusion hch
  · rw [hn] at hah; exact Option.noConfusion hah

/-- C7 witness: a concrete candidate whose hash computation fails is not
deleted. -/
theorem c7_witness :
    "C/f" ∉ process_regular_files (fun p => if p = "C/f" then none else some "h")
      [⟨"f", 3, "A/f"⟩] [⟨"f", 3, "C/f"⟩] :=
  c7_hash_failure_skip (fun p => if p = "C/f" then none else some "h")
    [⟨"f", 3, "A/f"⟩] [⟨"f", 3, "C/f"⟩] ⟨"f", 3, "C/f"⟩ ⟨"f", 3, "A/f"⟩
    (by decide) (by decide) (by decide) (Or.inl (by decide))

/-! ### Claim C8 -/

/-- C8: every manifest built by the scanners satisfies
`total_size = sum of entry sizes` and `file_count = number of entries`
(they are built by `mkArchiveData`), and the comparison passes never mutate
a manifest: the surviving candidate sets after the self-dedup and identity
passes are sub-multisets of the input, so the invariant holds for the
manifest's whole lifetime. -/
theorem c8_manifest_invariant :
    (∀ (lc : String → Option Contents) (folder : String) (ents : List FsEntry),
      ∀ x ∈ scan_archives lc folder ents,
        x.2.total_size = sumSizes x.2.contents ∧
          x.2.file_count = x.2.contents.length) ∧
    (∀ (sc : String → Contents) (folder : String) (ents : List FsEntry),
      ∀ x ∈ scan_folders sc folder ents,
        x.2.total_size = sumSizes x.2.contents ∧
          x.2.file_count = x.2.contents.length) ∧
    (∀ cands : List (String × ArchiveData), ∀ c ∈ survivors21 cands, c ∈ cands) ∧
    (∀ refs cands : List (String × ArchiveData),
      ∀ c ∈ survivors22 refs cands, c ∈ cands) := by
  refine ⟨?_, ?_, ?_, ?_⟩
  · intro lc folder ents x hx
    obtain ⟨e, _, _, _, _, c, _, hmk⟩ := scan_archives_mem hx
    rw [hmk]
    exact ⟨rfl, rfl⟩
  · intro sc folder ents x hx
    obtain ⟨e, _, _, _, hmk⟩ := scan_folders_mem hx
    rw [hmk]
    exact ⟨rfl, rfl⟩
  · intro cands c hcm
    exact List.mem_of_mem_filter hcm
  · intro refs cands c hcm
    exact List.mem_of_mem_filter hcm

/-- C8 witness: the invariant evaluated on one concretely scanned archive. -/
theorem c8_witness :
    (mkArchiveData [("f", 2)]).total_size = sumSizes [("f", 2)] ∧
    (mkArchiveData [("f", 2)]).file_count = ([("f", 2)] : Contents).length :=
  c8_manifest_invariant.1 (fun _ => some [("f", 2)]) "C"
    [⟨"a.zip", true, 0⟩] ("C/a.zip", mkArchiveData [("f", 2)]) (by decide)

/-! ### Claim C10 -/

/-- C10: a candidate file with extension .7z, .tar, .gz or .bz2 is admitted
by neither scanner — `get_regular_files` excludes every archive extension
and `scan_archives` admits only .zip and .rar — so its path appears in no
deletion list of the plain-file pass or the archive pass (self-dedup,
identity pass, containment pass). -/
theorem c10_other_archive_exts_untouched (lc : String → Option Contents)
    (hashOf : String → Option String) (folderA folderC : String)
    (entsA entsC : List FsEntry) (refs : List (String × ArchiveData))
    (ex : String → Bool) (f : FsEntry) (hf : f ∈ entsC)
    (hext : lowerStr (splitextExt f.name) ∈ [".7z", ".tar", ".gz", ".bz2"])
    (hnames : (entsC.map FsEntry.name).Nodup) :
    pathJoin folderC f.name ∉
      process_regular_files hashOf (get_regular_files folderA entsA)
        (get_regular_files folderC entsC) ∧
    pathJoin folderC f.name ∉ selfDedup (scan_archives lc folderC entsC) ∧
    pathJoin folderC f.name ∉ toDelete22 refs (scan_archives lc folderC entsC) ∧
    (∀ ds, pass23 ex refs (scan_archives lc folderC entsC) = Except.ok ds →
      pathJoin folderC f.name ∉ ds.map (fun d => d.1.1)) := by
  have harch : ∀ x ∈ scan_archives lc folderC entsC, x.1 ≠ pathJoin folderC f.name := by
    intro x hx heq
    obtain ⟨e, he, hxp, _, hextz, _⟩ := scan_archives_mem hx
    have hname : e.name = f.name := pathJoin_right_inj (hxp ▸ heq)
    have hef : e = f := List.inj_on_of_nodup_map hnames he hf hname
    rw [hef] at hextz
    simp only [List.mem_cons, List.not_mem_nil, or_false] at hext hextz
    rcases hext with h | h | h | h <;> rcases hextz with h2 | h2 <;>
      rw [h] at h2 <;> exact absurd h2 (by decide)
  refine ⟨?_, ?_, ?_, ?_⟩
  · intro hmem
    obtain ⟨c, hc, hpath, _, _, _, _, _, _, _, _⟩ := process_regular_files_mem hmem
    obtain ⟨e, he, hcr, _, hnarch⟩ := get_regular_files_mem hc
    have hp2 : c.path = pathJoin folderC e.name := by rw [hcr]
    have hname : e.name = f.name := pathJoin_right_inj (by rw [← hp2, ← hpath])
    have hef : e = f := List.inj_on_of_nodup_map hnames he hf hname
    rw [hef] at hnarch
    simp only [List.mem_cons, List.not_mem_nil, or_false] at hext
    rcases hext with h | h | h | h <;> rw [h] at hnarch <;>
      exact hnarch (by decide)
  · intro hmem
    have := selfDedup_subset_paths _ hmem
    obtain ⟨x, hx, hxp⟩ := List.mem_map.mp this
    exact harch x hx hxp
  · intro hmem
    obtain ⟨d, hd, hdp⟩ := List.mem_map.mp hmem
    exact harch d.1 (pass22Aux_mem hd).1 hdp
  · intro ds hds hmem
    obtain ⟨d, hd, hdp⟩ := List.mem_map.mp hmem
    exact harch d.1 (pass23Aux_mem hds d hd).1 hdp

/-- C10 witness: a concrete .tar candidate is untouched by both passes. -/
theorem c10_witness :
    pathJoin "C" "x.tar" ∉
      process_regular_files (fun _ => some "h")
        (get_regular_files "A" [⟨"x.tar", true, 4⟩])
        (get_regular_files "C" [⟨"x.tar", true, 4⟩]) ∧
    pathJoin "C" "x.tar" ∉
      selfDedup (scan_archives (fun _ => some []) "C" [⟨"x.tar", true, 4⟩]) ∧
    pathJoin "C" "x.tar" ∉
      toDelete22 [] (scan_archives (fun _ => some []) "C" [⟨"x.tar", true, 4⟩]) ∧
    (∀ ds, pass23 (fun _ => true) []
        (scan_archives (fun _ => some []) "C" [⟨"x.tar", true, 4⟩]) = Except.ok ds →
      pathJoin "C" "x.tar" ∉ ds.map (fun d => d.1.1)) :=
  c10_other_archive_exts_untouched (fun _ => some []) (fun _ => some "h") "A" "C"
    [⟨"x.tar", true, 4⟩] [⟨"x.tar", true, 4⟩] [] (fun _ => true)
    ⟨"x.tar", true, 4⟩ (by decide) (by decide) (by decide)

/-! ### Claim C9 -/

theorem scanRefs_zero_error {ex : String → Bool} {c : String × ArchiveData}
    {toDel : List String} :
    ∀ {refs : List (String × ArchiveData)} {proc : List (String × String)},
      c.2.total_size = 0 →
      (∃ a ∈ refs, a.2.total_size = 0) →
      (refs.map Prod.fst).Nodup →
      c.1 ∉ refs.map Prod.fst →
      (∀ a ∈ refs, pairKey c.1 a.1 ∉ proc) →
      scanRefs ex c toDel refs proc = Except.error () := by
  intro refs
  induction refs with
  | nil => intro proc _ hz _ _ _; simp at hz
  | cons r rest ih =>
    intro proc hc hz hN hcr hproc
    have hNr : (rest.map Prod.fst).Nodup := (List.nodup_cons.mp (by simpa using hN)).2
    have hrN : r.1 ∉ rest.map Prod.fst := (List.nodup_cons.mp (by simpa using hN)).1
    unfold scanRefs
    rw [if_neg (hproc r (List.mem_cons_self r rest))]
    by_cases hr0 : r.2.total_size = 0
    · have hrat : ratioGt15 c.2.total_size r.2.total_size = Except.error () := by
        unfold ratioGt15
        rw [hc, hr0]
        simp
      rw [hrat]
    · have hrat : ratioGt15 c.2.total_size r.2.total_size = Except.ok true := by
        unfold ratioGt15
        rw [hc]
        rw [if_neg (by simpa using hr0)]
        simp only [Except.ok.injEq, decide_eq_true_eq]
        omega
      rw [hrat]
      refine ih hc ?_ hNr ?_ ?_
      · obtain ⟨a, ha, ha0⟩ := hz
        rcases List.mem_cons.mp ha with rfl | har
        · exact absurd ha0 hr0
        · exact ⟨a, har, ha0⟩
      · intro hmem
        exact hcr (by simpa using Or.inr hmem)
      · intro a ha hmem
        rcases List.mem_cons.mp hmem with heq | hin
        · rcases pairKey_inj heq with ⟨_, h2⟩ | ⟨h1, _⟩
          · exact hrN (h2 ▸ List.mem_map_of_mem Prod.fst ha)
          · exact hcr (by simpa using Or.inl h1)
        · exact hproc a (List.mem_cons_of_mem r ha) hin

/-- C9: the size-ratio computation is total whenever at least one total is
nonzero, but for a candidate and a reference whose totals are both zero the
division `abs(c-a)/max(c,a)` raises an uncaught `ZeroDivisionError`
(modelled as `Except.error`), which aborts the whole containment pass
instead of skipping the pair. -/
theorem c9_zero_division (ex : String → Bool) (refs : List (String × ArchiveData))
    (c a : String × ArchiveData) (hc : c.2.total_size = 0) (haR : a ∈ refs)
    (ha0 : a.2.total_size = 0) (hRN : (refs.map Prod.fst).Nodup)
    (hcr : c.1 ∉ refs.map Prod.fst) :
    pass23 ex refs [c] = Except.error () ∧
    ∀ s t : Nat, (s ≠ 0 ∨ t ≠ 0) → ratioGt15 s t ≠ Except.error () := by
  constructor
  · unfold pass23 pass23Aux
    rw [scanRefs_zero_error hc ⟨a, haR, ha0⟩ hRN hcr (by intro x _ hx; simp at hx)]
  · intro s t hst herr
    unfold ratioGt15 at herr
    by_cases hmx : max s t = 0
    · have : s = 0 ∧ t = 0 := by omega
      tauto
    · rw [if_neg hmx] at herr
      exact Except.noConfusion herr

/-- C9 witness: two directory-marker-only manifests with total size zero
abort the containment pass. -/
theorem c9_witness :
    pass23 (fun _ => true) [("A/z", mkArchiveData [("d/", 0)])]
      [("C/z", mkArchiveData [("e/", 0)])] = Except.error () :=
  (c9_zero_division (fun _ => true) [("A/z", mkArchiveData [("d/", 0)])]
    ("C/z", mkArchiveData [("e/", 0)]) ("A/z", mkArchiveData [("d/", 0)])
    rfl (by decide) rfl (by decide) (by decide)).1

/-! ### Claim C5 -/

theorem pass22Aux_eq {refs : List (String × ArchiveData)} :
    ∀ {cands : List (String × ArchiveData)} {toDel : List String},
      (cands.map Prod.fst).Nodup →
      (∀ c ∈ cands, c.1 ∉ toDel) →
      pass22Aux refs cands toDel =
        cands.filterMap (fun c =>
          (refs.find? (fun a => are_archives_identical a.2 c.2)).map
            (fun a => (c, a))) := by
  intro cands
  induction cands with
  | nil => intro toDel _ _; rfl
  | cons c cs ih =>
    intro toDel hN htd
    have hNcs : (cs.map Prod.fst).Nodup := (List.nodup_cons.mp (by simpa using hN)).2
    have hhead : c.1 ∉ cs.map Prod.fst := (List.nodup_cons.mp (by simpa using hN)).1
    have htd2 : ∀ x ∈ cs, x.1 ∉ toDel ++ [c.1] := by
      intro x hx
      rw [List.mem_append]
      rintro (hx1 | hx2)
      · exact htd x (List.mem_cons_of_mem c hx) hx1
      · have : x.1 = c.1 := by simpa using hx2
        exact hhead (this ▸ List.mem_map_of_mem Prod.fst hx)
    unfold pass22Aux
    simp only [List.filterMap_cons]
    match hf : refs.find? (fun a => are_archives_identical a.2 c.2) with
    | none =>
      rw [hf]
      exact ih hNcs (fun x hx => htd x (List.mem_cons_of_mem c hx))
    | some a =>
      rw [hf]
      show (if c.1 ∈ toDel then pass22Aux refs cs toDel
        else (c, a) :: pass22Aux refs cs (toDel ++ [c.1])) = _
      rw [if_neg (htd c (List.mem_cons_self c cs))]
      exact congrArg (List.cons (c, a)) (ih hNcs htd2)

theorem toDelete22_mem_iff {refs cands : List (String × ArchiveData)}
    (hN : (cands.map Prod.fst).Nodup) (c : String × ArchiveData) (hc : c ∈ cands) :
    c.1 ∈ toDelete22 refs cands ↔
      (refs.find? (fun a => are_archives_identical a.2 c.2)).isSome := by
  unfold toDelete22 pass22
  rw [pass22Aux_eq hN (by simp)]
  constructor
  · intro h
    obtain ⟨d, hd, hdp⟩ := List.mem_map.mp h
    obtain ⟨c2, hc2, hfc2⟩ := List.mem_filterMap.mp hd
    match hf : refs.find? (fun a => are_archives_identical a.2 c2.2) with
    | none => rw [hf] at hfc2; simp at hfc2
    | some a =>
      rw [hf] at hfc2
      have hd2 : d = (c2, a) := by simpa using hfc2.symm
      have hc2c : c2 = c := by
        apply List.inj_on_of_nodup_map hN hc2 hc
        rw [← hdp, hd2]
      rw [← hc2c, hf]
      rfl
  · intro h
    match hf : refs.find? (fun a => are_archives_identical a.2 c.2) with
    | none => rw [hf] at h; simp at h
    | some a =>
      refine List.mem_map.mpr ⟨(c, a), ?_, rfl⟩
      refine List.mem_filterMap.mpr ⟨c, hc, ?_⟩
      rw [hf]
      rfl

theorem survivors22_eq (refs : List (String × ArchiveData))
    {cands : List (String × ArchiveData)} (hN : (cands.map Prod.fst).Nodup) :
    survivors22 refs cands = cands.filter (fun c =>
      (refs.find? (fun a => are_archives_identical a.2 c.2)).isNone) := by
  unfold survivors22
  apply List.filter_congr
  intro c hc
  match hf : refs.find? (fun a => are_archives_identical a.2 c.2) with
  | none =>
    have hnot : c.1 ∉ toDelete22 refs cands := by
      intro hmem
      have := (toDelete22_mem_iff hN c hc).mp hmem
      rw [hf] at this
      simp at this
    rw [hf]
    simp [hnot]
  | some a =>
    have hmem : c.1 ∈ toDelete22 refs cands :=
      (toDelete22_mem_iff hN c hc).mpr (by rw [hf]; rfl)
    rw [hf]
    simp [hmem]

theorem scanRefs_eq (ex : String → Bool) (c : String × ArchiveData)
    (toDel : List String) :
    ∀ {refs : List (String × ArchiveData)} {proc : List (String × String)},
      (refs.map Prod.fst).Nodup →
      c.1 ∉ refs.map Prod.fst →
      (∀ a ∈ refs, pairKey c.1 a.1 ∉ proc) →
      (∀ a ∈ refs, ¬(c.2.total_size = 0 ∧ a.2.total_size = 0)) →
      ∃ proc2,
        scanRefs ex c toDel refs proc =
          Except.ok ((if decide (c.1 ∉ toDel) && ex c.1
            then refs.find? (crossMatch c) else none), proc2) ∧
        ∀ x ∈ proc2, x ∈ proc ∨ ∃ a ∈ refs, x = pairKey c.1 a.1 := by
  intro refs
  induction refs with
  | nil =>
    intro proc _ _ _ _
    refine ⟨proc, ?_, fun x hx => Or.inl hx⟩
    cases hg : decide (c.1 ∉ toDel) && ex c.1 <;> simp [scanRefs, hg]
  | cons r rest ih =>
    intro proc hN hcr hproc hnz
    have hNr : (rest.map Prod.fst).Nodup := (List.nodup_cons.mp (by simpa using hN)).2
    have hrN : r.1 ∉ rest.map Prod.fst := (List.nodup_cons.mp (by simpa using hN)).1
    have hcrr : c.1 ∉ rest.map Prod.fst := fun h => hcr (by simpa using Or.inr h)
    have hcrh : c.1 ≠ r.1 := fun h => hcr (by simpa using Or.inl h)
    have hmx : max c.2.total_size r.2.total_size ≠ 0 := by
      have := hnz r (List.mem_cons_self r rest)
      rcases not_and_or.mp this with h | h <;> omega
    have hproc2 : ∀ a ∈ rest, pairKey c.1 a.1 ∉ pairKey c.1 r.1 :: proc := by
      intro a ha hmem
      rcases List.mem_cons.mp hmem with heq | hin
      · rcases pairKey_inj heq with ⟨_, h2⟩ | ⟨h1, _⟩
        · exact hrN (h2 ▸ List.mem_map_of_mem Prod.fst ha)
        · exact hcrh h1
      · exact hproc a (List.mem_cons_of_mem r ha) hin
    have hnz2 : ∀ a ∈ rest, ¬(c.2.total_size = 0 ∧ a.2.total_size = 0) :=
      fun a ha => hnz a (List.mem_cons_of_mem r ha)
    have hrat : ratioGt15 c.2.total_size r.2.total_size =
        Except.ok (decide (20 * (max c.2.total_size r.2.total_size -
          min c.2.total_size r.2.total_size) >
            3 * max c.2.total_size r.2.total_size)) := by
      unfold ratioGt15
      rw [if_neg hmx]
    unfold scanRefs
    rw [if_neg (hproc r (List.mem_cons_self r rest))]
    cases hb : decide (20 * (max c.2.total_size r.2.total_size -
        min c.2.total_size r.2.total_size) > 3 * max c.2.total_size r.2.total_size) with
    | true =>
      rw [hb] at hrat
      rw [hrat]
      have hcm : crossMatch c r = false := by
        unfold crossMatch
        rw [hrat]
      obtain ⟨proc2, heq, hsub⟩ := ih hNr hcrr hproc2 hnz2
      refine ⟨proc2, ?_, ?_⟩
      · rw [heq, List.find?_cons_of_neg _ (by simp [hcm])]
      · intro x hx
        rcases hsub x hx with hin | ⟨a, ha, hpk⟩
        · rcases List.mem_cons.mp hin with heq2 | hin2
          · exact Or.inr ⟨r, List.mem_cons_self r rest, heq2⟩
          · exact Or.inl hin2
        · exact Or.inr ⟨a, List.mem_cons_of_mem r ha, hpk⟩
    | false =>
      rw [hb] at hrat
      rw [hrat]
      have hcm : crossMatch c r =
          (is_archive_contained c.2 r.2 && decide (c.2.file_count < r.2.file_count)) := by
        unfold crossMatch
        rw [hrat]
      by_cases hcond : is_archive_contained c.2 r.2 &&
          decide (c.2.file_count < r.2.file_count)
      · rw [if_pos hcond]
        have hfind : (r :: rest).find? (crossMatch c) = some r :=
          List.find?_cons_of_pos _ (by rw [hcm]; exact hcond)
        by_cases hgate : decide (c.1 ∉ toDel) && ex c.1
        · rw [if_pos hgate]
          refine ⟨pairKey c.1 r.1 :: proc, ?_, ?_⟩
          · rw [hfind, if_pos hgate]
          · intro x hx
            rcases List.mem_cons.mp hx with heq2 | hin2
            · exact Or.inr ⟨r, List.mem_cons_self r rest, heq2⟩
            · exact Or.inl hin2
        · rw [if_neg hgate]
          obtain ⟨proc2, heq, hsub⟩ := ih hNr hcrr hproc2 hnz2
          refine ⟨proc2, ?_, ?_⟩
          · rw [heq, if_neg hgate, if_neg hgate]
          · intro x hx
            rcases hsub x hx with hin | ⟨a, ha, hpk⟩
            · rcases List.mem_cons.mp hin with heq2 | hin2
              · exact Or.inr ⟨r, List.mem_cons_self r rest, heq2⟩
              · exact Or.inl hin2
            · exact Or.inr ⟨a, List.mem_cons_of_mem r ha, hpk⟩
      · rw [if_neg hcond]
        have hcmf : crossMatch c r = false := by
          rw [hcm]
          exact Bool.of_not_eq_true hcond
        obtain ⟨proc2, heq, hsub⟩ := ih hNr hcrr hproc2 hnz2
        refine ⟨proc2, ?_, ?_⟩
        · rw [heq, List.find?_cons_of_neg _ (by simp [hcmf])]
        · intro x hx
          rcases hsub x hx with hin | ⟨a, ha, hpk⟩
          · rcases List.mem_cons.mp hin with heq2 | hin2
            · exact Or.inr ⟨r, List.mem_cons_self r rest, heq2⟩
            · exact Or.inl hin2
          · exact Or.inr ⟨a, List.mem_cons_of_mem r ha, hpk⟩

theorem pass23Aux_cons_none {ex : String → Bool} {refs : List (String × ArchiveData)}
    {c : String × ArchiveData} {cs : List (String × ArchiveData)}
    {toDel : List String} {proc proc2 : List (String × String)}
    (hscan : scanRefs ex c toDel refs proc = Except.ok (none, proc2)) :
    pass23Aux ex refs (c :: cs) toDel proc = pass23Aux ex refs cs toDel proc2 := by
  conv_lhs => rw [pass23Aux]
  rw [hscan]

theorem pass23Aux_cons_some {ex : String → Bool} {refs : List (String × ArchiveData)}
    {c : String × ArchiveData} {cs : List (String × ArchiveData)}
    {toDel : List String} {proc proc2 : List (String × String)}
    {a : String × ArchiveData}
    (hscan : scanRefs ex c toDel refs proc = Except.ok (some a, proc2)) :
    pass23Aux ex refs (c :: cs) toDel proc =
      (match pass23Aux ex refs cs (toDel ++ [c.1]) proc2 with
        | Except.error e => Except.error e
        | Except.ok ds2 => Except.ok ((c, a) :: ds2)) := by
  conv_lhs => rw [pass23Aux]
  rw [hscan]

theorem pass23Aux_eq {ex : String → Bool} {refs : List (String × ArchiveData)} :
    ∀ {cands : List (String × ArchiveData)} {toDel : List String}
      {proc : List (String × String)},
      (refs.map Prod.fst).Nodup →
      (cands.map Prod.fst).Nodup →
      (∀ c ∈ cands, c.1 ∉ refs.map Prod.fst) →
      (∀ c ∈ cands, c.1 ∉ toDel) →
      (∀ c ∈ cands, ∀ a ∈ refs, pairKey c.1 a.1 ∉ proc) →
      (∀ c ∈ cands, ∀ a ∈ refs, ¬(c.2.total_size = 0 ∧ a.2.total_size = 0)) →
      pass23Aux ex refs cands toDel proc =
        Except.ok (cands.filterMap (fun c =>
          if ex c.1 then (refs.find? (crossMatch c)).map (fun a => (c, a))
          else none)) := by
  intro cands
  induction cands with
  | nil => intro toDel proc _ _ _ _ _ _; rfl
  | cons c cs ih =>
    intro toDel proc hRN hCN hdisj htd hproc hnz
    have hCNcs : (cs.map Prod.fst).Nodup := (List.nodup_cons.mp (by simpa using hCN)).2
    have hhead : c.1 ∉ cs.map Prod.fst := (List.nodup_cons.mp (by simpa using hCN)).1
    obtain ⟨proc2, hscan, hsub⟩ := scanRefs_eq ex c toDel hRN
      (hdisj c (List.mem_cons_self c cs))
      (hproc c (List.mem_cons_self c cs))
      (hnz c (List.mem_cons_self c cs))
    have hproc2 : ∀ x ∈ cs, ∀ a ∈ refs, pairKey x.1 a.1 ∉ proc2 := by
      intro x hx a ha hmem
      rcases hsub _ hmem with hin | ⟨a2, ha2, hpk⟩
      · exact hproc x (List.mem_cons_of_mem c hx) a ha hin
      · rcases pairKey_inj hpk with ⟨h1, _⟩ | ⟨h1, _⟩
        · exact hhead (h1 ▸ List.mem_map_of_mem Prod.fst hx)
        · refine hdisj x (List.mem_cons_of_mem c hx) ?_
          rw [h1]
          exact List.mem_map_of_mem Prod.fst ha2
    have htdc : c.1 ∉ toDel := htd c (List.mem_cons_self c cs)
    have hdisj2 : ∀ x ∈ cs, x.1 ∉ refs.map Prod.fst :=
      fun x hx => hdisj x (List.mem_cons_of_mem c hx)
    have htdcs : ∀ x ∈ cs, x.1 ∉ toDel :=
      fun x hx => htd x (List.mem_cons_of_mem c hx)
    have hnz2 : ∀ x ∈ cs, ∀ a ∈ refs, ¬(x.2.total_size = 0 ∧ a.2.total_size = 0) :=
      fun x hx => hnz x (List.mem_cons_of_mem c hx)
    have htd2 : ∀ x ∈ cs, x.1 ∉ toDel ++ [c.1] := by
      intro x hx
      rw [List.mem_append]
      rintro (hx1 | hx2)
      · exact htdcs x hx hx1
      · have : x.1 = c.1 := by simpa using hx2
        exact hhead (this ▸ List.mem_map_of_mem Prod.fst hx)
    simp only [List.filterMap_cons]
    by_cases hex : ex c.1 = true
    · have hgate2 : (decide (c.1 ∉ toDel) && ex c.1) = true := by
        simp [htdc, hex]
      match hfind : refs.find? (crossMatch c) with
      | none =>
        have hscan2 : scanRefs ex c toDel refs proc = Except.ok (none, proc2) := by
          rw [hscan, if_pos hgate2, hfind]
        rw [pass23Aux_cons_none hscan2, if_pos hex]
        exact ih hRN hCNcs hdisj2 htdcs hproc2 hnz2
      | some a =>
        have hscan2 : scanRefs ex c toDel refs proc = Except.ok (some a, proc2) := by
          rw [hscan, if_pos hgate2, hfind]
        rw [pass23Aux_cons_some hscan2, ih hRN hCNcs hdisj2 htd2 hproc2 hnz2,
          if_pos hex]
        rfl
    · have hexf : ex c.1 = false := Bool.of_not_eq_true hex
      have hscan2 : scanRefs ex c toDel refs proc = Except.ok (none, proc2) := by
        rw [hscan, if_neg (by simp [hexf])]
      rw [pass23Aux_cons_none hscan2, if_neg hex]
      exact ih hRN hCNcs hdisj2 htdcs hproc2 hnz2

/-- C5: in the cross-collection reduction, the identity test runs before
any containment test. `process_cross` — identity pass 2.2 over all
remaining candidates, then containment pass 2.3 over what survives it —
equals its first-match specification: each candidate identical to some
reference is marked with the FIRST identical reference as keeper (the
reference scan stops there); exactly the candidates with no identical
reference proceed to the containment pass; and each of those still
existing on disk is marked with the FIRST reference that passes the
size-ratio prefilter, the subset scan and the cardinality check, the scan
stopping at that keeper. Hypotheses: distinct candidate paths, distinct
reference paths, the two collections disjoint (they live in different
directories), and no candidate/reference pair with both total sizes zero
(that pair would raise the division-by-zero of C9). -/
theorem c5_cross_pass_order (ex : String → Bool)
    (refs cands : List (String × ArchiveData))
    (hRN : (refs.map Prod.fst).Nodup)
    (hCN : (cands.map Prod.fst).Nodup)
    (hdisj : ∀ c ∈ cands, c.1 ∉ refs.map Prod.fst)
    (hnz : ∀ c ∈ cands, ∀ a ∈ refs, ¬(c.2.total_size = 0 ∧ a.2.total_size = 0)) :
    process_cross ex refs cands =
      (cands.filterMap (fun c =>
        (refs.find? (fun a => are_archives_identical a.2 c.2)).map
          (fun a => (c, a))),
       Except.ok ((cands.filter (fun c =>
          (refs.find? (fun a => are_archives_identical a.2 c.2)).isNone)).filterMap
            (fun c => if ex c.1 then (refs.find? (crossMatch c)).map (fun a => (c, a))
              else none))) := by
  have hs := survivors22_eq refs hCN
  have hsurvN : ((survivors22 refs cands).map Prod.fst).Nodup :=
    hCN.sublist ((List.filter_sublist cands).map Prod.fst)
  have h23 : pass23 ex refs (survivors22 refs cands) =
      Except.ok ((survivors22 refs cands).filterMap
        (fun c => if ex c.1 then (refs.find? (crossMatch c)).map (fun a => (c, a))
          else none)) := by
    apply pass23Aux_eq hRN hsurvN
    · intro c hc; exact hdisj c (List.mem_of_mem_filter hc)
    · intro c _; simp
    · intro c _ a _; simp
    · intro c hc a ha; exact hnz c (List.mem_of_mem_filter hc) a ha
  unfold process_cross pass22
  rw [pass22Aux_eq hCN (by simp), h23, hs]

/-- C5 witness: a concrete cross pass with one identical candidate and one
containment-only candidate. -/
theorem c5_witness :
    process_cross (fun _ => true) [("A/r", mkArchiveData [("f", 2)])]
      [("C/r", mkArchiveData [("f", 2)]), ("C/s", mkArchiveData [("g", 3)])] =
      ([("C/r", mkArchiveData [("f", 2)]), ("C/s", mkArchiveData [("g", 3)])].filterMap
        (fun c => (([("A/r", mkArchiveData [("f", 2)])].find?
          (fun a => are_archives_identical a.2 c.2)).map (fun a => (c, a)))),
       Except.ok (([("C/r", mkArchiveData [("f", 2)]),
          ("C/s", mkArchiveData [("g", 3)])].filter (fun c =>
            (([("A/r", mkArchiveData [("f", 2)])].find?
              (fun a => are_archives_identical a.2 c.2)).isNone))).filterMap
            (fun c => if (fun _ : String => true) c.1
              then (([("A/r", mkArchiveData [("f", 2)])].find? (crossMatch c)).map
                (fun a => (c, a)))
              else none))) :=
  c5_cross_pass_order (fun _ => true) [("A/r", mkArchiveData [("f", 2)])]
    [("C/r", mkArchiveData [("f", 2)]), ("C/s", mkArchiveData [("g", 3)])]
    (by decide) (by decide) (by decide) (by decide)

end Dedup
